import Mathlib

/-!
Verification development for the halal-stock-bot repository.

The embedding is shallow: each Python function of the repository is
translated into a Lean definition over exact rational arithmetic (ℚ in
place of floats) and explicit `Option` values in place of pandas NA /
Python `None`.  Instants of time are modelled as minutes on a local
clock: minute `0` is 00:00 of a Monday, a day has 1440 minutes, the
weekday of day `d` is `d % 7` with Monday = 0 (Python's `weekday()`
convention).  The timezone conversion performed by `pytz` is the
identity in this fixed-offset model, so a reference instant is given
directly in the session's local minutes.  The unbounded `while True`
loops of `market_status.py` are modelled with an explicit fuel
parameter: returning `none` at every fuel bound corresponds to the
loop never producing a value.
-/

attribute [local semireducible] Rat.add Rat.mul Rat.inv Rat.sub

namespace HalalBot

/-! ## market_status.py -/

/-- A trading session, from `Market` in `market_status.py`.  Times are
minutes after local midnight; `weekend` is the list of non-trading
weekday indices (Monday = 0). -/
structure Market where
  name : String
  open_time : ℕ
  close_time : ℕ
  weekend : List ℕ
deriving DecidableEq

/-- From `MarketStatus` in `market_status.py`; instants are local minutes. -/
structure MarketStatus where
  is_open : Bool
  next_open : ℕ
  next_close : ℕ
deriving DecidableEq

/-- The loop body of `_next_open`: starting from date `d`, scan forward one
day at a time for a date whose weekday is not in the weekend set and whose
open instant lies strictly after `reference`.  `fuel` bounds the number of
iterations; the Python loop is unbounded (`while True`). -/
def nextOpenAux (m : Market) (reference : ℕ) (d : ℕ) : ℕ → Option ℕ
  | 0 => none
  | fuel + 1 =>
    if d % 7 ∉ m.weekend ∧ reference < d * 1440 + m.open_time then
      some (d * 1440 + m.open_time)
    else
      nextOpenAux m reference (d + 1) fuel

/-- `_next_open` with fuel 8 (enough for any weekly-periodic weekend set
that leaves at least one trading weekday). -/
def nextOpen (m : Market) (reference : ℕ) : Option ℕ :=
  nextOpenAux m reference (reference / 1440) 8

/-- The loop body of `_next_close`: `future = reference + days` of days;
stop on the first `future` whose weekday is not in the weekend set and
return the close instant of that date. -/
def nextCloseAux (m : Market) (reference : ℕ) (days : ℕ) : ℕ → Option ℕ
  | 0 => none
  | fuel + 1 =>
    let future := reference + days * 1440
    if (future / 1440) % 7 ∉ m.weekend then
      some ((future / 1440) * 1440 + m.close_time)
    else
      nextCloseAux m reference (days + 1) fuel

/-- `_next_close`: today's close if still ahead, else the close of the next
trading day found by the forward scan. -/
def nextClose (m : Market) (reference : ℕ) : Option ℕ :=
  let candidate := (reference / 1440) * 1440 + m.close_time
  if reference < candidate then some candidate
  else nextCloseAux m reference 1 8

/-- `Market.status`.  The result is `none` exactly when one of the forward
scans fails to return within its fuel bound (the situation in which the
Python loops would not have terminated within 8 iterations). -/
def status (m : Market) (now : ℕ) : Option MarketStatus :=
  let day := now / 1440
  let is_weekend := day % 7 ∈ m.weekend
  let opens_today := day * 1440 + m.open_time
  let closes_today := day * 1440 + m.close_time
  if is_weekend ∨ now < opens_today then
    (nextOpen m now).map (fun no =>
      ⟨false, no, if now < opens_today then opens_today else closes_today⟩)
  else if opens_today ≤ now ∧ now ≤ closes_today then
    (nextOpen m now).map (fun no => ⟨true, no, closes_today⟩)
  else
    (nextOpen m now).bind (fun no =>
      (nextClose m now).map (fun nc => ⟨false, no, nc⟩))

/-- A session with open 09:30, close 16:00, weekend Saturday/Sunday
(the NYSE entry of `_default_markets`). -/
def mStd : Market := ⟨"NYSE", 570, 960, [5, 6]⟩

/-- A degenerate session whose non-trading set covers all 7 weekdays. -/
def mAllWeekend : Market := ⟨"BAD", 570, 960, [0, 1, 2, 3, 4, 5, 6]⟩

/-! ## screener.py -/

/-- From `HalalStock` in `screener.py`. -/
structure HalalStock where
  ticker : String
  exchange : String
  name : String
  source : String
deriving DecidableEq

/-- One row of the CSV as produced by `csv.DictReader`: `row.get(col)` is
`none` when the column is absent. -/
structure Row where
  ticker : Option String
  exchange : Option String
  name : Option String
  source : Option String
deriving DecidableEq

/-- Python's `str.upper()` (the tickers of this repository are ASCII;
`Char.toUpper` uppercases exactly the ASCII range). -/
def pyUpper (s : String) : String := ⟨s.data.map Char.toUpper⟩

/-- Python dict assignment `d[k] = v`: an existing key keeps its position
and receives the new value, a new key is appended. -/
def dictInsert (k : String) (v : HalalStock) : List (String × HalalStock) → List (String × HalalStock)
  | [] => [(k, v)]
  | (k', v') :: rest => if k' = k then (k, v) :: rest else (k', v') :: dictInsert k v rest

/-- The `HalalStock` built from a row in `HalalScreener._load`. -/
def stockOfRow (t : String) (r : Row) : HalalStock :=
  ⟨pyUpper t, r.exchange.getD "", r.name.getD "", r.source.getD ""⟩

/-- One iteration of the row loop of `HalalScreener._load`: a row whose
ticker is absent or empty is skipped (`if not ticker: continue`),
otherwise the uppercased ticker is assigned in the dict. -/
def loadStep (acc : List (String × HalalStock)) (r : Row) : List (String × HalalStock) :=
  match r.ticker with
  | none => acc
  | some t => if t = "" then acc else dictInsert (pyUpper t) (stockOfRow t r) acc

/-- `HalalScreener._load` over an already-parsed list of rows. -/
def loadRows (rows : List Row) : List (String × HalalStock) :=
  rows.foldl loadStep []

/-- The state of a constructed `HalalScreener`: the `_stocks` dict (as an
insertion-ordered association list) and the `_default_tickers` list. -/
structure HalalScreener where
  stocks : List (String × HalalStock)
  defaults : List String
deriving DecidableEq

/-- `HalalScreener.get`: point lookup after uppercasing the argument. -/
def screenerGet (s : HalalScreener) (ticker : String) : Option HalalStock :=
  s.stocks.lookup (pyUpper ticker)

/-- `HalalScreener.default_watchlist`: the configured defaults filtered by
dict-key membership (`ticker in self._stocks` — no case normalization). -/
def defaultWatchlist (s : HalalScreener) : List String :=
  s.defaults.filter (fun t => (s.stocks.lookup t).isSome)

/-! ## signals.py: RSI over `Option ℚ` series (pandas NA model) -/

/-- `series.diff()` tail: each element minus its predecessor. -/
def diffAux (prev : ℚ) : List ℚ → List (Option ℚ)
  | [] => []
  | y :: ys => some (y - prev) :: diffAux y ys

/-- `series.diff()`: NA at position 0, then successive differences. -/
def diff : List ℚ → List (Option ℚ)
  | [] => []
  | x :: xs => none :: diffAux x xs

/-- `delta.clip(lower=0)`. -/
def clipLower0 (xs : List (Option ℚ)) : List (Option ℚ) :=
  xs.map (Option.map (fun d => max d 0))

/-- `-(delta.clip(upper=0))`. -/
def negClipUpper0 (xs : List (Option ℚ)) : List (Option ℚ) :=
  xs.map (Option.map (fun d => -(min d 0)))

/-- The first `w` elements, provided all of them exist and are non-NA. -/
def takeExact : ℕ → List (Option ℚ) → Option (List ℚ)
  | 0, _ => some []
  | _ + 1, [] => none
  | _ + 1, none :: _ => none
  | w + 1, some v :: xs => (takeExact w xs).map (fun l => v :: l)

/-- `series.rolling(window=w).mean()` with the pandas defaults
(`min_periods = w`, NA in the window poisons the result): position `i`
holds the mean of positions `i + 1 - w … i` when the window fits and is
fully valid, NA otherwise. -/
def rollingMean (w : ℕ) (xs : List (Option ℚ)) : List (Option ℚ) :=
  (List.range xs.length).map (fun i =>
    if w ≤ i + 1 then (takeExact w (xs.drop (i + 1 - w))).map (fun l => l.sum / (w : ℚ))
    else none)

/-- `loss.replace(0, pd.NA)`. -/
def replaceZeroNA (xs : List (Option ℚ)) : List (Option ℚ) :=
  xs.map (fun o => o.bind (fun v => if v = 0 then none else some v))

/-- Elementwise division with NA propagation (`gain / loss`). -/
def divNA (gs ls : List (Option ℚ)) : List (Option ℚ) :=
  List.zipWith (fun g l => g.bind (fun gv => l.map (fun lv => gv / lv))) gs ls

/-- The `_rsi` pipeline up to (and including) `100 - 100/(1 + rs)`,
before the fills. -/
def rsiRaw (series : List ℚ) (period : ℕ) : List (Option ℚ) :=
  let delta := diff series
  let gain := rollingMean period (clipLower0 delta)
  let loss := replaceZeroNA (rollingMean period (negClipUpper0 delta))
  let rs := divNA gain loss
  rs.map (Option.map (fun r => 100 - 100 / (1 + r)))

/-- First non-NA value of a series, if any. -/
def firstSome : List (Option ℚ) → Option ℚ
  | [] => none
  | some v :: _ => some v
  | none :: xs => firstSome xs

/-- `fillna(method="bfill")`: each NA takes the nearest subsequent
non-NA value (staying NA when none exists). -/
def bfill : List (Option ℚ) → List (Option ℚ)
  | [] => []
  | some v :: xs => some v :: bfill xs
  | none :: xs => firstSome xs :: bfill xs

/-- `fillna(d)` resolving every remaining NA to `d`. -/
def fillna (d : ℚ) (xs : List (Option ℚ)) : List ℚ :=
  xs.map (fun o => o.getD d)

/-- `_rsi` in `signals.py`. -/
def rsiSeries (series : List ℚ) (period : ℕ := 14) : List ℚ :=
  fillna 50 (bfill (rsiRaw series period))

/-! ## signals.py: signal construction and generation -/

/-- One OHLCV bar of the downloaded frame. -/
structure Bar where
  close : ℚ
  high : ℚ
  low : ℚ
  volume : ℚ
deriving DecidableEq

/-- From `Signal` in `signals.py`.  The `timestamp` field
(`datetime.utcnow()`) is wall-clock I/O and carries no information the
claims mention, so it is left out of the embedding. -/
structure Signal where
  ticker : String
  exchange : String
  name : String
  entry_price : ℚ
  current_price : ℚ
  recent_high : ℚ
  recent_low : ℚ
  percent_change : ℚ
  rsi : ℚ
  volume : ℚ
  volume_ratio : ℚ
  reason : String
  projected_target : ℚ
deriving DecidableEq

/-- `_reason` in `signals.py` (1.5 = 3/2, 1.2 = 6/5 exactly). -/
def reasonOf (percent_change volume_ratio rsi : ℚ) : String :=
  let c1 :=
    if 3 < percent_change then "strong intraday breakout"
    else if 3 / 2 < percent_change then "steady bullish move"
    else "early momentum build-up"
  let c2 :=
    if 2 < volume_ratio then ["unusual volume inflow"]
    else if 6 / 5 < volume_ratio then ["volume above average"]
    else []
  let c3 :=
    if rsi < 30 then ["oversold reversal potential"]
    else if 70 < rsi then ["overbought strength"]
    else []
  String.intercalate ", " (c1 :: (c2 ++ c3))

/-- `df.tail(n)`: the last `n` rows (all of them when fewer). -/
def tailN (n : ℕ) (l : List Bar) : List Bar :=
  l.drop (l.length - n)

/-- `series.max()` over a non-empty list (the default is never used at
the call site, which is guarded by a length check). -/
def listMax (l : List ℚ) (d : ℚ) : ℚ :=
  match l with
  | [] => d
  | x :: xs => xs.foldl max x

/-- `series.min()`, likewise. -/
def listMin (l : List ℚ) (d : ℚ) : ℚ :=
  match l with
  | [] => d
  | x :: xs => xs.foldl min x

/-- `SignalEngine._build_signal`.  The `raise ValueError` on fewer than
15 bars becomes `none` (the caller catches every exception). -/
def buildSignal (stock : HalalStock) (df : List Bar) : Option Signal :=
  let df := tailN 40 df
  let close := df.map Bar.close
  let high := df.map Bar.high
  let low := df.map Bar.low
  let volume := df.map Bar.volume
  if close.length < 15 then none
  else
    let lastClose := close.getLastD 0
    let prevClose := close.dropLast.getLastD 0
    let percent_change := (lastClose / prevClose - 1) * 100
    let avgRaw := volume.dropLast.sum / (volume.dropLast.length : ℚ)
    let avg_volume := if avgRaw = 0 then 1 else avgRaw
    let volume_ratio := volume.getLastD 0 / avg_volume
    let current_rsi := (rsiSeries close 14).getLastD 50
    some
      { ticker := stock.ticker
        exchange := stock.exchange
        name := stock.name
        entry_price := prevClose
        current_price := lastClose
        recent_high := listMax high 0
        recent_low := listMin low 0
        percent_change := percent_change
        rsi := current_rsi
        volume := volume.getLastD 0
        volume_ratio := volume_ratio
        reason := reasonOf percent_change volume_ratio current_rsi
        projected_target := lastClose * (1 + max percent_change 2 / 100 * (7 / 10)) }

/-- The per-ticker body of the loop in `SignalEngine.generate`: missing
registry entry, missing or empty data, or a failing build each yield
`none` (the ticker is skipped). -/
def candidateSignal (s : HalalScreener) (data : String → Option (List Bar)) (ticker : String) :
    Option Signal :=
  match screenerGet s ticker with
  | none => none
  | some meta =>
    match data ticker with
    | none => none
    | some df => if df.isEmpty then none else buildSignal meta df

/-- The sort key of `SignalEngine.generate`. -/
def score (s : Signal) : ℚ :=
  s.percent_change * s.volume_ratio

/-- `signals.sort(key=..., reverse=True)`: Python's sort is stable, and a
stable descending sort is exactly insertion sort under
`score b ≤ score a`. -/
def sortSignals (l : List Signal) : List Signal :=
  l.insertionSort (fun a b => score b ≤ score a)

/-- `SignalEngine.generate`, with the external download modelled as the
mapping `data` from ticker to its (possibly absent) frame. -/
def generate (s : HalalScreener) (data : String → Option (List Bar)) (tickers : List String)
    (max_signals : ℕ := 5) : List Signal :=
  let up := tickers.map pyUpper
  if up.isEmpty then []
  else (sortSignals (up.filterMap (candidateSignal s data))).take max_signals

/-! ## handlers.py -/

/-- The mutable fields of `BotState` that `_maybe_refresh_signals`
touches; times are seconds since an epoch. -/
structure BotState where
  watchlist : List String
  latest_signals : List Signal
  last_signal_refresh : Option ℕ
deriving DecidableEq

/-- Python's `timedelta.seconds` on a non-negative delta: the seconds
component after the whole days are split off. -/
def pySeconds (delta : ℕ) : ℕ :=
  delta % 86400

/-- `_maybe_refresh_signals`: skip when a previous refresh exists and the
`.seconds` component of the elapsed delta is below 60; otherwise replace
the cached batch and the timestamp together. -/
def maybeRefreshSignals (scr : HalalScreener) (data : String → Option (List Bar)) (now : ℕ)
    (st : BotState) : BotState :=
  match st.last_signal_refresh with
  | some t =>
    if pySeconds (now - t) < 60 then st
    else { st with latest_signals := generate scr data st.watchlist 5, last_signal_refresh := some now }
  | none =>
    { st with latest_signals := generate scr data st.watchlist 5, last_signal_refresh := some now }

/-! ## Concrete test fixtures -/

/-- A registry entry used as a concrete fixture. -/
def metaA : HalalStock := ⟨"AAPL", "NASDAQ", "Apple", "csv"⟩

/-- Fifteen flat bars: enough data for `buildSignal`. -/
def bars15 : List Bar := List.replicate 15 ⟨1, 1, 1, 1⟩

/-- A one-entry screener fixture. -/
def scrC : HalalScreener := ⟨[("AAPL", metaA)], ["AAPL"]⟩

/-- A price-data mapping serving only AAPL. -/
def dataC : String → Option (List Bar) := fun t => if t = "AAPL" then some bars15 else none

/-! ## Helper lemmas: the forward date scan of `_next_open` -/

/-- Anything `nextOpenAux` returns is the open instant of the first
qualifying date at or after the start date `d`. -/
lemma nextOpenAux_spec (m : Market) (ref : ℕ) (hop : m.open_time < 1440) :
    ∀ (fuel d r : ℕ), nextOpenAux m ref d fuel = some r →
      d ≤ r / 1440 ∧ (r / 1440) % 7 ∉ m.weekend ∧ ref < r ∧ r % 1440 = m.open_time ∧
      ∀ d', d ≤ d' → d' < r / 1440 → ¬(d' % 7 ∉ m.weekend ∧ ref < d' * 1440 + m.open_time)
  | 0, d, r => by simp [nextOpenAux]
  | fuel + 1, d, r => by
    intro h
    rw [nextOpenAux] at h
    split_ifs at h with hc
    · obtain ⟨hw, hlt⟩ := hc
      have hr : r = d * 1440 + m.open_time := by
        simpa using h.symm
      have hdiv : r / 1440 = d := by omega
      have hmod : r % 1440 = m.open_time := by omega
      refine ⟨by omega, by rwa [hdiv], by omega, hmod, ?_⟩
      intro d' h1 h2
      omega
    · obtain ⟨h1, h2, h3, h4, h5⟩ := nextOpenAux_spec m ref hop fuel (d + 1) r h
      refine ⟨by omega, h2, h3, h4, ?_⟩
      intro d' hd1 hd2
      rcases Nat.eq_or_lt_of_le hd1 with heq | hlt
      · subst heq
        tauto
      · exact h5 d' hlt hd2

/-- If some date within the fuel bound qualifies, the scan succeeds. -/
lemma nextOpenAux_some_of_exists (m : Market) (ref : ℕ) :
    ∀ (fuel d : ℕ),
      (∃ k, k < fuel ∧ (d + k) % 7 ∉ m.weekend ∧ ref < (d + k) * 1440 + m.open_time) →
      ∃ r, nextOpenAux m ref d fuel = some r
  | 0, d => by
    rintro ⟨k, hk, -⟩
    omega
  | fuel + 1, d => by
    rintro ⟨k, hk, hw, hlt⟩
    rw [nextOpenAux]
    split_ifs with hc
    · exact ⟨_, rfl⟩
    · refine nextOpenAux_some_of_exists m ref fuel (d + 1) ⟨k - 1, ?_, ?_, ?_⟩
      · rcases Nat.eq_zero_or_pos k with h0 | h0
        · subst h0
          simp only [Nat.add_zero] at hw hlt
          exact absurd ⟨hw, hlt⟩ hc
        · omega
      · have hk0 : k ≠ 0 := by
          intro h0
          subst h0
          simp only [Nat.add_zero] at hw hlt
          exact hc ⟨hw, hlt⟩
        have : d + 1 + (k - 1) = d + k := by omega
        rwa [this]
      · have hk0 : k ≠ 0 := by
          intro h0
          subst h0
          simp only [Nat.add_zero] at hw hlt
          exact hc ⟨hw, hlt⟩
        have : d + 1 + (k - 1) = d + k := by omega
        rwa [this]

/-- A weekend set leaving one trading weekday lets `nextOpen` succeed:
among the seven dates after the reference date every weekday residue
occurs once, and each of their open instants is past the reference. -/
lemma nextOpen_isSome (m : Market) (now : ℕ) (hw : ∃ w, w < 7 ∧ w ∉ m.weekend) :
    ∃ r, nextOpen m now = some r := by
  obtain ⟨w, hw7, hwmem⟩ := hw
  set d := now / 1440 with hd
  refine nextOpenAux_some_of_exists m now 8 d ⟨(w + 6 - d % 7) % 7 + 1, ?_, ?_, ?_⟩
  · omega
  · have : (d + ((w + 6 - d % 7) % 7 + 1)) % 7 = w := by omega
    rwa [this]
  · have h1 : now < (d + 1) * 1440 := by omega
    have h2 : (d + 1) * 1440 ≤ (d + ((w + 6 - d % 7) % 7 + 1)) * 1440 := by
      have : d + 1 ≤ d + ((w + 6 - d % 7) % 7 + 1) := by omega
      exact Nat.mul_le_mul_right 1440 this
    omega

/-! ## Claim C1 -/

/-- C1: the invariant "`next_open` and `next_close` are always strictly
greater than the reference instant" fails in the code.  On the standard
session (open 09:30, close 16:00, weekend Sat/Sun), at the reference
Saturday 20:00 (minute 8400 = day 5 at 1200), `Market.status` takes the
weekend branch with `local_now ≥ opens_today` and returns
`next_close = closes_today` = Saturday 16:00 (minute 8160), an instant
in the past. -/
theorem C1_next_close_in_past :
    status mStd 8400 = some ⟨false, 10650, 8160⟩ ∧ 8160 < 8400 := by
  constructor
  · rfl
  · decide

/-! ## Claim C2 -/

/-- C2: when the non-trading set covers all 7 weekdays the forward scan
of `_next_open` never returns, at any iteration bound: the code loops
indefinitely instead of detecting the configuration and reporting an
error. -/
theorem C2_all_weekend_scan_never_returns (fuel d ref : ℕ) :
    nextOpenAux mAllWeekend ref d fuel = none := by
  induction fuel generalizing d with
  | zero => rfl
  | succ fuel ih =>
    rw [nextOpenAux]
    have hmem : d % 7 ∈ mAllWeekend.weekend := by
      have h7 : d % 7 < 7 := Nat.mod_lt _ (by norm_num)
      simp only [mAllWeekend, List.mem_cons, List.mem_singleton]
      omega
    rw [if_neg (by tauto)]
    exact ih (d + 1)

/-- Witness for C2 at a concrete fuel, date and reference. -/
theorem C2_all_weekend_scan_never_returns_witness :
    nextOpenAux mAllWeekend 8400 5 100 = none :=
  C2_all_weekend_scan_never_returns 100 5 8400

/-! ## Claim C7 -/

/-- C7: for a session keeping at least one trading weekday (and a
sane open time), the next-open computed by the forward scan is exactly
the nearest future instant whose local date is a trading day and whose
local time-of-day equals the session's open time; and concretely, on
the standard session at Friday 20:00 (minute 6960 = day 4 at 1200) the
status is closed with next-open Monday 09:30 (minute 10650 = day 7 at
570). -/
theorem C7_next_open_is_nearest_qualifying :
    (∀ (m : Market) (now : ℕ), m.open_time < 1440 → (∃ w, w < 7 ∧ w ∉ m.weekend) →
      ∃ r, nextOpen m now = some r ∧ now < r ∧ r % 1440 = m.open_time ∧
        (r / 1440) % 7 ∉ m.weekend ∧
        ∀ r', now < r' → r' % 1440 = m.open_time → (r' / 1440) % 7 ∉ m.weekend → r ≤ r') ∧
    (∀ (m : Market) (now : ℕ) (st : MarketStatus), status m now = some st →
      nextOpen m now = some st.next_open) ∧
    status mStd 6960 = some ⟨false, 10650, 11040⟩ ∧ 10650 % 1440 = 570 ∧ 10650 / 1440 = 7 := by
  refine ⟨?_, ?_, by rfl, by decide, by decide⟩
  swap
  · intro m now st h
    rw [status] at h
    split_ifs at h <;>
      first
      | · obtain ⟨no, hno, hst⟩ := Option.map_eq_some'.1 h
          subst hst
          exact hno
      | · obtain ⟨no, hno, hrest⟩ := Option.bind_eq_some.1 h
          obtain ⟨nc, -, hst⟩ := Option.map_eq_some'.1 hrest
          subst hst
          exact hno
  intro m now hop hw
  obtain ⟨r, hr⟩ := nextOpen_isSome m now hw
  obtain ⟨h1, h2, h3, h4, h5⟩ := nextOpenAux_spec m now hop 8 (now / 1440) r hr
  refine ⟨r, hr, h3, h4, h2, ?_⟩
  intro r' hnow hmod hwday
  set d' := r' / 1440 with hd'
  have hr' : r' = d' * 1440 + m.open_time := by omega
  have hd0 : now / 1440 ≤ d' := Nat.div_le_div_right (le_of_lt hnow)
  rcases Nat.lt_or_ge d' (r / 1440) with hlt | hge
  · exact absurd ⟨hwday, by omega⟩ (h5 d' hd0 hlt)
  · have : r = (r / 1440) * 1440 + m.open_time := by omega
    omega

/-- Witness for C7 on the standard session at Friday 20:00. -/
theorem C7_next_open_is_nearest_qualifying_witness :
    ∃ r, nextOpen mStd 6960 = some r ∧ 6960 < r ∧ r % 1440 = mStd.open_time ∧
      (r / 1440) % 7 ∉ mStd.weekend ∧
      ∀ r', 6960 < r' → r' % 1440 = mStd.open_time → (r' / 1440) % 7 ∉ mStd.weekend → r ≤ r' :=
  C7_next_open_is_nearest_qualifying.1 mStd 6960 (by decide) ⟨0, by decide, by decide⟩

/-! ## Claim C6 -/

/-- C6: the claimed refresh policy "regenerate iff no prior refresh or at
least 60 seconds elapsed" fails in the code: the guard reads the
`.seconds` component of the elapsed timedelta, i.e. the elapsed time
modulo one day.  With a last refresh at second 0 and the request at
second 86400 (exactly one day later, far beyond 60 seconds), the code
keeps the stale cached batch and timestamp although a fresh, different
batch was available. -/
theorem C6_refresh_guard_uses_seconds_component :
    maybeRefreshSignals scrC dataC 86400 ⟨["AAPL"], [], some 0⟩ = ⟨["AAPL"], [], some 0⟩ ∧
    60 ≤ 86400 - 0 ∧
    generate scrC dataC ["AAPL"] 5 ≠ [] := by
  exact ⟨by rfl, by norm_num, by decide⟩

/-! ## Claim C8 -/

/-- Members of a dict after an assignment: the assigned pair, or a pair
that was already present. -/
lemma mem_dictInsert {k : String} {v : HalalStock} {k' : String} {v' : HalalStock} :
    ∀ {l : List (String × HalalStock)}, (k, v) ∈ dictInsert k' v' l →
      (k = k' ∧ v = v') ∨ (k, v) ∈ l
  | [], h => by
    simp only [dictInsert, List.mem_singleton] at h
    exact Or.inl ⟨congrArg Prod.fst h, congrArg Prod.snd h⟩
  | (k₁, v₁) :: rest, h => by
    rw [dictInsert] at h
    split_ifs at h with he
    · rcases List.mem_cons.1 h with h1 | h1
      · exact Or.inl ⟨congrArg Prod.fst h1, congrArg Prod.snd h1⟩
      · exact Or.inr (List.mem_cons_of_mem _ h1)
    · rcases List.mem_cons.1 h with h1 | h1
      · exact Or.inr (List.mem_cons.2 (Or.inl h1))
      · rcases mem_dictInsert h1 with h2 | h2
        · exact Or.inl h2
        · exact Or.inr (List.mem_cons_of_mem _ h2)

/-- Every entry produced by the row loop comes from a row with a
non-empty ticker, under the uppercased key. -/
lemma mem_foldl_loadStep :
    ∀ (rows : List Row) (acc : List (String × HalalStock)) (k : String) (v : HalalStock),
      (k, v) ∈ rows.foldl loadStep acc →
      (k, v) ∈ acc ∨
        ∃ r ∈ rows, ∃ t, r.ticker = some t ∧ t ≠ "" ∧ k = pyUpper t ∧ v = stockOfRow t r
  | [], acc, k, v, h => Or.inl h
  | r :: rows, acc, k, v, h => by
    rw [List.foldl_cons] at h
    rcases mem_foldl_loadStep rows (loadStep acc r) k v h with h1 | h1
    · rcases hrt : r.ticker with _ | t
      · rw [loadStep, hrt] at h1
        exact Or.inl h1
      · rw [loadStep, hrt] at h1
        dsimp only at h1
        split_ifs at h1 with ht
        · exact Or.inl h1
        · rcases mem_dictInsert h1 with h2 | h2
          · exact Or.inr ⟨r, List.mem_cons_self _ _, t, hrt, ht, h2.1, h2.2⟩
          · exact Or.inl h2
    · obtain ⟨r', hr', rest⟩ := h1
      exact Or.inr ⟨r', List.mem_cons_of_mem _ hr', rest⟩

/-- C8: registry load skips rows with a missing ticker, normalizes
tickers to uppercase (every produced key is the uppercase of some row's
ticker, and the stored entry repeats it), and resolves duplicates
last-write-wins: a source of exactly two rows sharing a ticker yields
the single entry carrying the second row's values. -/
theorem C8_load_skips_uppercases_last_write_wins :
    (∀ (pre post : List Row) (r : Row), r.ticker = none →
      loadRows (pre ++ r :: post) = loadRows (pre ++ post)) ∧
    (∀ (rows : List Row) (k : String) (v : HalalStock), (k, v) ∈ loadRows rows →
      v.ticker = k ∧ ∃ r ∈ rows, ∃ t, r.ticker = some t ∧ t ≠ "" ∧ k = pyUpper t) ∧
    (∀ (r1 r2 : Row) (t1 t2 : String), r1.ticker = some t1 → r2.ticker = some t2 →
      t1 ≠ "" → t2 ≠ "" → pyUpper t1 = pyUpper t2 →
      loadRows [r1, r2] = [(pyUpper t2, stockOfRow t2 r2)]) := by
  refine ⟨?_, ?_, ?_⟩
  · intro pre post r hr
    simp only [loadRows, List.foldl_append, List.foldl_cons]
    rw [loadStep, hr]
  · intro rows k v h
    rcases mem_foldl_loadStep rows [] k v h with h1 | h1
    · simp at h1
    · obtain ⟨r, hr, t, ht, hne, hk, hv⟩ := h1
      constructor
      · rw [hv, stockOfRow, hk]
      · exact ⟨r, hr, t, ht, hne, hk⟩
  · intro r1 r2 t1 t2 h1 h2 hne1 hne2 hup
    have e1 : loadStep [] r1 = [(pyUpper t1, stockOfRow t1 r1)] := by
      rw [loadStep, h1]
      dsimp only
      rw [if_neg hne1]
      rfl
    have e2 : loadRows [r1, r2] = loadStep (loadStep [] r1) r2 := rfl
    rw [e2, e1, loadStep, h2]
    dsimp only
    rw [if_neg hne2]
    simp only [dictInsert]
    rw [if_pos hup]

/-- Concrete fixtures for C8: a row with no ticker column, and two rows
for the same instrument written in different case. -/
def rowNoTicker : Row := ⟨none, some "NASDAQ", some "Ghost", none⟩

/-- First duplicate row, lowercase ticker. -/
def rowA1 : Row := ⟨some "aapl", some "NASDAQ", some "Apple", none⟩

/-- Second duplicate row, its values must win. -/
def rowA2 : Row := ⟨some "AAPL", some "NASDAQ", some "Apple Inc", some "z"⟩

/-- Witness for C8: the three parts at concrete rows. -/
theorem C8_load_skips_uppercases_last_write_wins_witness :
    loadRows [rowA1, rowNoTicker, rowA2] = loadRows [rowA1, rowA2] ∧
    ((stockOfRow "AAPL" rowA2).ticker = "AAPL" ∧
      ∃ r ∈ [rowA2], ∃ t, r.ticker = some t ∧ t ≠ "" ∧ "AAPL" = pyUpper t) ∧
    loadRows [rowA1, rowA2] = [(pyUpper "AAPL", stockOfRow "AAPL" rowA2)] := by
  refine ⟨?_, ?_, ?_⟩
  · exact C8_load_skips_uppercases_last_write_wins.1 [rowA1] [rowA2] rowNoTicker rfl
  · have := C8_load_skips_uppercases_last_write_wins.2.1 [rowA2] "AAPL" (stockOfRow "AAPL" rowA2)
      (by decide)
    exact this
  · exact C8_load_skips_uppercases_last_write_wins.2.2 rowA1 rowA2 "aapl" "AAPL" rfl rfl
      (by decide) (by decide) (by decide)

/-! ## Claim C9 -/

/-- C9 (amended): `default_watchlist` returns the configured defaults
that occur verbatim as registry keys, in configured order.  The filter
is the raw dict-membership test `ticker in self._stocks`, which does not
uppercase its argument, so — unlike `get` — it is case-sensitive. -/
theorem C9_watchlist_filters_by_exact_key (s : HalalScreener) :
    (defaultWatchlist s).Sublist s.defaults ∧
    ∀ t, t ∈ defaultWatchlist s ↔ t ∈ s.defaults ∧ (s.stocks.lookup t).isSome := by
  constructor
  · exact List.filter_sublist _
  · intro t
    simp [defaultWatchlist, List.mem_filter]

/-- Witness for C9 at a concrete screener. -/
theorem C9_watchlist_filters_by_exact_key_witness :
    ("AAPL" ∈ defaultWatchlist scrC ↔
      "AAPL" ∈ scrC.defaults ∧ (scrC.stocks.lookup "AAPL").isSome) :=
  (C9_watchlist_filters_by_exact_key scrC).2 "AAPL"

/-- C9 counterexample: with the registry holding AAPL and the configured
default written "aapl", `get` resolves the instrument case-insensitively
but `default_watchlist` drops it — a configured default does not
identify the same instrument regardless of case. -/
theorem C9_counterexample_lowercase_default :
    screenerGet ⟨[("AAPL", metaA)], ["aapl"]⟩ "aapl" = some metaA ∧
    defaultWatchlist ⟨[("AAPL", metaA)], ["aapl"]⟩ = [] := by
  constructor
  · rfl
  · rfl

/-! ## Claim C10 -/

/-- `_build_signal` labels its output with the registry entry's ticker. -/
lemma buildSignal_ticker {stock : HalalStock} {df : List Bar} {sig : Signal}
    (h : buildSignal stock df = some sig) : sig.ticker = stock.ticker := by
  rw [buildSignal] at h
  split_ifs at h
  cases h
  rfl

/-- The arithmetic of the projected target: a move floored at 2% and
damped by 0.7 multiplies a positive price by at least 1.014. -/
lemma target_floor_arith (c pct : ℚ) (hpos : 0 < c) :
    c * (1014 / 1000) ≤ c * (1 + max pct 2 / 100 * (7 / 10)) ∧
    c < c * (1 + max pct 2 / 100 * (7 / 10)) := by
  have hmax : (2 : ℚ) ≤ max pct 2 := le_max_right _ _
  have hfac : (1014 / 1000 : ℚ) ≤ 1 + max pct 2 / 100 * (7 / 10) := by linarith
  have h2 : c * (1014 / 1000) ≤ c * (1 + max pct 2 / 100 * (7 / 10)) :=
    mul_le_mul_of_nonneg_left hfac (le_of_lt hpos)
  have h1 : c * 1 < c * (1014 / 1000) := mul_lt_mul_of_pos_left (by norm_num) hpos
  rw [mul_one] at h1
  exact ⟨h2, lt_of_lt_of_le h1 h2⟩

/-- C10: every built signal with a positive current price projects a
target of at least 1.4% above it (the assumed move is floored at 2% and
damped by 0.7), hence strictly above the current price even for a
negative percent change. -/
theorem C10_projected_target_floor (stock : HalalStock) (df : List Bar) (sig : Signal)
    (h : buildSignal stock df = some sig) (hpos : 0 < sig.current_price) :
    sig.current_price * (1014 / 1000) ≤ sig.projected_target ∧
    sig.current_price < sig.projected_target := by
  rw [buildSignal] at h
  split_ifs at h
  cases h
  exact target_floor_arith _ _ hpos

/-- The signal built from the flat fixture bars. -/
def sigC : Signal :=
  ⟨"AAPL", "NASDAQ", "Apple", 1, 1, 1, 1, 0, 50, 1, 1, "early momentum build-up", 507 / 500⟩

set_option maxRecDepth 8000 in
/-- Witness for C10 on the flat fixture. -/
theorem C10_projected_target_floor_witness :
    sigC.current_price * (1014 / 1000) ≤ sigC.projected_target ∧
    sigC.current_price < sigC.projected_target :=
  C10_projected_target_floor metaA bars15 sigC (by decide) (by norm_num [sigC])

/-! ## Claim C3: bounds for the RSI pipeline -/

/-- A fully valid window extracted by `takeExact` consists of values of
the source series. -/
lemma takeExact_mem :
    ∀ (w : ℕ) (ys : List (Option ℚ)) (l : List ℚ), takeExact w ys = some l →
      ∀ v ∈ l, some v ∈ ys
  | 0, ys, l, h => by
    rw [takeExact] at h
    cases h
    intro v hv
    simp at hv
  | w + 1, [], l, h => by
    rw [takeExact] at h
    cases h
  | w + 1, none :: xs, l, h => by
    rw [takeExact] at h
    cases h
  | w + 1, some v₀ :: xs, l, h => by
    rw [takeExact] at h
    obtain ⟨l', hl', rfl⟩ := Option.map_eq_some'.1 h
    intro v hv
    rcases List.mem_cons.1 hv with h1 | h1
    · subst h1
      exact List.mem_cons_self _ _
    · exact List.mem_cons_of_mem _ (takeExact_mem w xs l' hl' v h1)

/-- A defined rolling-mean value is nonnegative when every defined value
of the source series is. -/
lemma rollingMean_nonneg {w : ℕ} {xs : List (Option ℚ)} (hsrc : ∀ u, some u ∈ xs → 0 ≤ u)
    {v : ℚ} (hv : some v ∈ rollingMean w xs) : 0 ≤ v := by
  rw [rollingMean] at hv
  obtain ⟨i, -, hi⟩ := List.mem_map.1 hv
  split_ifs at hi
  obtain ⟨l, hl, rfl⟩ := Option.map_eq_some'.1 hi
  have hall : ∀ u ∈ l, 0 ≤ u := by
    intro u hu
    have := takeExact_mem w _ l hl u hu
    exact hsrc u (List.drop_subset _ _ this)
  have hsum : 0 ≤ l.sum := List.sum_nonneg hall
  positivity

/-- Defined gains are nonnegative. -/
lemma clipLower0_nonneg {xs : List (Option ℚ)} {u : ℚ} (h : some u ∈ clipLower0 xs) : 0 ≤ u := by
  rw [clipLower0] at h
  obtain ⟨o, -, ho⟩ := List.mem_map.1 h
  obtain ⟨d, -, hd⟩ := Option.map_eq_some'.1 ho
  rw [← hd]
  exact le_max_right _ _

/-- Defined losses are nonnegative. -/
lemma negClipUpper0_nonneg {xs : List (Option ℚ)} {u : ℚ} (h : some u ∈ negClipUpper0 xs) :
    0 ≤ u := by
  rw [negClipUpper0] at h
  obtain ⟨o, -, ho⟩ := List.mem_map.1 h
  obtain ⟨d, -, hd⟩ := Option.map_eq_some'.1 ho
  rw [← hd, neg_nonneg]
  exact min_le_right _ _

/-- Values that survive `replace(0, NA)` come from the source and are
nonzero. -/
lemma replaceZeroNA_mem {xs : List (Option ℚ)} {u : ℚ} (h : some u ∈ replaceZeroNA xs) :
    some u ∈ xs ∧ u ≠ 0 := by
  rw [replaceZeroNA] at h
  obtain ⟨o, ho, hu⟩ := List.mem_map.1 h
  rcases o with _ | v
  · cases hu
  · rw [Option.some_bind] at hu
    split_ifs at hu with hz
    cases hu
    exact ⟨ho, hz⟩

/-- A defined elementwise quotient comes from defined operands. -/
lemma divNA_mem :
    ∀ {gs ls : List (Option ℚ)} {r : ℚ}, some r ∈ divNA gs ls →
      ∃ g l, some g ∈ gs ∧ some l ∈ ls ∧ r = g / l
  | [], _, r, h => by cases h
  | _ :: _, [], r, h => by cases h
  | g₀ :: gs, l₀ :: ls, r, h => by
    rw [divNA, List.zipWith_cons_cons] at h
    rcases List.mem_cons.1 h with h1 | h1
    · rcases g₀ with _ | gv
      · cases h1
      · rcases l₀ with _ | lv
        · cases h1
        · rw [Option.some_bind, Option.map_some'] at h1
          cases h1
          exact ⟨gv, lv, List.mem_cons_self _ _, List.mem_cons_self _ _, rfl⟩
    · obtain ⟨g, l, hg, hl, hr⟩ := divNA_mem h1
      exact ⟨g, l, List.mem_cons_of_mem _ hg, List.mem_cons_of_mem _ hl, hr⟩

/-- Every defined value of the raw RSI series lies in `[0, 100)`:
`100 - 100/(1+rs)` with a nonnegative relative strength `rs`. -/
lemma rsiRaw_bounds {series : List ℚ} {period : ℕ} {x : ℚ}
    (h : some x ∈ rsiRaw series period) : 0 ≤ x ∧ x < 100 := by
  rw [rsiRaw] at h
  obtain ⟨o, ho, hx⟩ := List.mem_map.1 h
  rcases o with _ | r
  · cases hx
  · rw [Option.map_some'] at hx
    cases hx
    obtain ⟨g, l, hg, hl, hr⟩ := divNA_mem ho
    have hg0 : 0 ≤ g := rollingMean_nonneg (fun u hu => clipLower0_nonneg hu) hg
    obtain ⟨hl', hlnz⟩ := replaceZeroNA_mem hl
    have hl0 : 0 ≤ l := rollingMean_nonneg (fun u hu => negClipUpper0_nonneg hu) hl'
    have hlpos : 0 < l := lt_of_le_of_ne hl0 (Ne.symm hlnz)
    have hr0 : 0 ≤ r := hr ▸ div_nonneg hg0 (le_of_lt hlpos)
    have hden : (0 : ℚ) < 1 + r := by linarith
    constructor
    · have : 100 / (1 + r) ≤ 100 := by
        apply div_le_self (by norm_num)
        linarith
      linarith
    · have : 0 < 100 / (1 + r) := by positivity
      linarith

/-- The first defined value of a series is one of its values. -/
lemma firstSome_mem : ∀ {xs : List (Option ℚ)} {v : ℚ}, firstSome xs = some v → some v ∈ xs
  | [], v, h => by cases h
  | some u :: xs, v, h => by
    rw [firstSome] at h
    cases h
    exact List.mem_cons_self _ _
  | none :: xs, v, h => by
    rw [firstSome] at h
    exact List.mem_cons_of_mem _ (firstSome_mem h)

/-- Back-fill only copies values already present in the series. -/
lemma bfill_mem : ∀ {xs : List (Option ℚ)} {v : ℚ}, some v ∈ bfill xs → some v ∈ xs
  | [], v, h => by cases h
  | some u :: xs, v, h => by
    rw [bfill] at h
    rcases List.mem_cons.1 h with h1 | h1
    · cases h1
      exact List.mem_cons_self _ _
    · exact List.mem_cons_of_mem _ (bfill_mem h1)
  | none :: xs, v, h => by
    rw [bfill] at h
    rcases List.mem_cons.1 h with h1 | h1
    · exact List.mem_cons_of_mem _ (firstSome_mem h1.symm)
    · exact List.mem_cons_of_mem _ (bfill_mem h1)

/-- Every final RSI value is either the neutral default 50 or a defined
value of the raw series. -/
lemma rsiSeries_mem {series : List ℚ} {period : ℕ} {x : ℚ} (h : x ∈ rsiSeries series period) :
    x = 50 ∨ some x ∈ rsiRaw series period := by
  rw [rsiSeries, fillna] at h
  obtain ⟨o, ho, hx⟩ := List.mem_map.1 h
  rcases o with _ | v
  · rw [Option.getD_none] at hx
    exact Or.inl hx.symm
  · rw [Option.getD_some] at hx
    cases hx
    exact Or.inr (bfill_mem ho)

/-- A strictly rising close series, length 16. -/
def risingClosesEx : List ℚ :=
  [1, 2, 3, 4, 5, 6, 7, 8, 9, 10, 11, 12, 13, 14, 15, 16]

/-- A strictly falling close series, length 16. -/
def fallingClosesEx : List ℚ :=
  [16, 15, 14, 13, 12, 11, 10, 9, 8, 7, 6, 5, 4, 3, 2, 1]

/-- C3 (amended): every computed RSI value is finite and within
`[0, 100]`; a series with only falling closes yields exactly 0; a series
with only rising closes has zero rolling loss average at every position,
so every RSI value is undefined, the back-fill finds no valid value, and
the entire result defaults to the neutral 50 (it does not approach 100). -/
theorem C3_rsi_bounded_rising_neutral :
    (∀ (series : List ℚ) (x : ℚ), x ∈ rsiSeries series 14 → 0 ≤ x ∧ x ≤ 100) ∧
    rsiSeries fallingClosesEx 14 = List.replicate 16 0 ∧
    rsiSeries risingClosesEx 14 = List.replicate 16 50 := by
  refine ⟨?_, by decide, by decide⟩
  intro series x h
  rcases rsiSeries_mem h with h1 | h1
  · subst h1
    norm_num
  · obtain ⟨h2, h3⟩ := rsiRaw_bounds h1
    exact ⟨h2, le_of_lt h3⟩

/-- Witness for C3 on a concrete series and value. -/
theorem C3_rsi_bounded_rising_neutral_witness :
    0 ≤ (50 : ℚ) ∧ (50 : ℚ) ≤ 100 :=
  C3_rsi_bounded_rising_neutral.1 risingClosesEx 50 (by decide)

/-- C3 counterexample: the claim "a series with only rising closes
approaches 100" is false for the code.  On a strictly increasing
16-value series the loss average is zero wherever defined, the RS is
undefined everywhere, and every RSI value resolves to 50 — no value is
anywhere near 100. -/
theorem C3_counterexample_rising_gives_neutral :
    List.Pairwise (fun a b => a < b) risingClosesEx ∧
    rsiSeries risingClosesEx 14 = List.replicate 16 50 ∧
    ¬∃ x ∈ rsiSeries risingClosesEx 14, 60 ≤ x := by
  have heq : rsiSeries risingClosesEx 14 = List.replicate 16 50 := by decide
  refine ⟨?_, heq, ?_⟩
  · rw [risingClosesEx]
    norm_num [List.pairwise_cons]
  · rintro ⟨x, hx, h60⟩
    rw [heq] at hx
    have := List.eq_of_mem_replicate hx
    subst this
    norm_num at h60

/-! ## Claim C4 -/

/-- A successful association-list lookup exhibits a member pair. -/
lemma lookup_mem :
    ∀ {l : List (String × HalalStock)} {k : String} {v : HalalStock},
      l.lookup k = some v → (k, v) ∈ l
  | [], k, v, h => by cases h
  | (k', v') :: l, k, v, h => by
    rw [List.lookup_cons] at h
    cases hbe : (k == k') <;> rw [hbe] at h
    · exact List.mem_cons_of_mem _ (lookup_mem h)
    · cases h
      have : k = k' := by simpa using hbe
      subst this
      exact List.mem_cons_self _ _

/-- `generate` is the capped, sorted view of the per-ticker candidates. -/
lemma generate_eq_take_sort (s : HalalScreener) (data : String → Option (List Bar))
    (tickers : List String) (n : ℕ) :
    generate s data tickers n =
      (sortSignals ((tickers.map pyUpper).filterMap (candidateSignal s data))).take n := by
  rw [generate]
  split_ifs with h
  · rw [List.isEmpty_iff] at h
    rw [h]
    simp [sortSignals]
  · rfl

/-- C4: a ticker absent from the registry never yields a signal in the
generated batch (when the registry satisfies its load invariant that
each entry is stored under its own ticker), and a ticker whose
per-ticker pipeline fails — missing registry entry, missing or empty
frame, or failing build — is exactly dropped from the request list,
leaving the rest of the batch unchanged. -/
theorem C4_unregistered_excluded_failures_isolated :
    (∀ (s : HalalScreener) (data : String → Option (List Bar)) (tickers : List String) (n : ℕ),
      (∀ p ∈ s.stocks, (p.2).ticker = p.1) →
      ∀ sig ∈ generate s data tickers n, (s.stocks.lookup sig.ticker).isSome) ∧
    (∀ (s : HalalScreener) (data : String → Option (List Bar)) (l₁ l₂ : List String)
      (t : String) (n : ℕ), candidateSignal s data (pyUpper t) = none →
      generate s data (l₁ ++ t :: l₂) n = generate s data (l₁ ++ l₂) n) := by
  constructor
  · intro s data tickers n hkeys sig hsig
    rw [generate_eq_take_sort] at hsig
    have h1 := List.take_subset n _ hsig
    rw [sortSignals, List.mem_insertionSort] at h1
    obtain ⟨t, -, hc⟩ := List.mem_filterMap.1 h1
    rw [candidateSignal] at hc
    rcases hg : screenerGet s t with _ | meta <;> rw [hg] at hc
    · cases hc
    · rcases hd : data t with _ | df <;> rw [hd] at hc
      · cases hc
      · dsimp only at hc
        split_ifs at hc
        have hticker := buildSignal_ticker hc
        rw [screenerGet] at hg
        have hmem := lookup_mem hg
        have hkey := hkeys _ hmem
        rw [hticker, hkey, hg]
        rfl
  · intro s data l₁ l₂ t n hfail
    rw [generate_eq_take_sort, generate_eq_take_sort]
    simp only [List.map_append, List.map_cons, List.filterMap_append, List.filterMap_cons, hfail]

set_option maxRecDepth 8000 in
/-- Witness for C4: an unregistered ticker request changes nothing, and
the one generated signal's ticker is a registry key. -/
theorem C4_unregistered_excluded_failures_isolated_witness :
    (scrC.stocks.lookup sigC.ticker).isSome ∧
    generate scrC dataC ([] ++ "ZZZ" :: ["AAPL"]) 5 = generate scrC dataC ([] ++ ["AAPL"]) 5 :=
  ⟨C4_unregistered_excluded_failures_isolated.1 scrC dataC ["AAPL"] 5 (by decide) sigC (by decide),
    C4_unregistered_excluded_failures_isolated.2 scrC dataC [] ["AAPL"] "ZZZ" 5 (by decide)⟩

/-! ## Claim C5 -/

/-- The candidate list of `generate` before ranking. -/
def candidatesOf (s : HalalScreener) (data : String → Option (List Bar))
    (tickers : List String) : List Signal :=
  (tickers.map pyUpper).filterMap (candidateSignal s data)

/-- Inserting into the ranked list preserves the subsequence of signals
of any fixed score: the new element lands after every strictly-better
element and before every equal-or-worse one. -/
lemma filter_orderedInsert (q : ℚ) (a : Signal) :
    ∀ l : List Signal,
      (List.orderedInsert (fun x y => score y ≤ score x) a l).filter
          (fun x => decide (score x = q)) =
        if score a = q then a :: l.filter (fun x => decide (score x = q))
        else l.filter (fun x => decide (score x = q))
  | [] => by
    simp only [List.orderedInsert, List.filter]
    split_ifs with h <;> simp [h]
  | b :: l => by
    rw [List.orderedInsert]
    by_cases hr : score b ≤ score a
    · rw [if_pos hr]
      by_cases h : score a = q <;> simp [List.filter_cons, h]
    · rw [if_neg hr]
      push_neg at hr
      have IH := filter_orderedInsert q a l
      by_cases hbq : score b = q <;> by_cases haq : score a = q
      · exfalso
        rw [hbq, haq] at hr
        exact lt_irrefl q hr
      · simp [List.filter_cons, hbq, haq, IH]
      · simp [List.filter_cons, hbq, haq, IH]
      · simp [List.filter_cons, hbq, haq, IH]

/-- Stability of the ranking: for each score value, the ranked list
lists the signals of that score in their original order. -/
lemma filter_sortSignals (q : ℚ) :
    ∀ l : List Signal,
      (sortSignals l).filter (fun x => decide (score x = q)) =
        l.filter (fun x => decide (score x = q))
  | [] => rfl
  | a :: l => by
    rw [sortSignals, List.insertionSort]
    have hfold : List.insertionSort (fun x y => score y ≤ score x) l = sortSignals l := rfl
    rw [hfold, filter_orderedInsert q a (sortSignals l), filter_sortSignals q l, List.filter_cons]
    split_ifs with h <;> simp_all

/-- C5: the generated batch never exceeds `max_signals`; it is ordered
by weakly descending `percent_change * volume_ratio`; it is exactly the
`max_signals`-prefix of the stable descending sort of the candidates;
and the sort is stable: signals of equal score keep their original
relative order.  Determinism for identical input is inherent: the
embedding is a pure function. -/
theorem C5_ranked_capped_stable (s : HalalScreener) (data : String → Option (List Bar))
    (tickers : List String) (n : ℕ) :
    (generate s data tickers n).length ≤ n ∧
    (generate s data tickers n).Pairwise (fun a b => score b ≤ score a) ∧
    generate s data tickers n = (sortSignals (candidatesOf s data tickers)).take n ∧
    ∀ q : ℚ,
      (sortSignals (candidatesOf s data tickers)).filter (fun x => decide (score x = q)) =
        (candidatesOf s data tickers).filter (fun x => decide (score x = q)) := by
  have heq : generate s data tickers n = (sortSignals (candidatesOf s data tickers)).take n :=
    generate_eq_take_sort s data tickers n
  refine ⟨?_, ?_, heq, fun q => filter_sortSignals q _⟩
  · rw [heq]
    exact List.length_take_le _ _
  · rw [heq]
    haveI : IsTotal Signal (fun a b => score b ≤ score a) :=
      ⟨fun a b => le_total (score b) (score a)⟩
    haveI : IsTrans Signal (fun a b => score b ≤ score a) :=
      ⟨fun a b c h1 h2 => le_trans h2 h1⟩
    have hs : List.Sorted (fun a b => score b ≤ score a)
        (sortSignals (candidatesOf s data tickers)) := List.sorted_insertionSort _ _
    exact hs.sublist (List.take_sublist _ _)

/-- Witness for C5 at the concrete fixture. -/
theorem C5_ranked_capped_stable_witness :
    (generate scrC dataC ["AAPL"] 5).length ≤ 5 ∧
    (sortSignals (candidatesOf scrC dataC ["AAPL"])).filter (fun x => decide (score x = 0)) =
      (candidatesOf scrC dataC ["AAPL"]).filter (fun x => decide (score x = 0)) :=
  ⟨(C5_ranked_capped_stable scrC dataC ["AAPL"] 5).1,
    (C5_ranked_capped_stable scrC dataC ["AAPL"] 5).2.2.2 0⟩

end HalalBot
